import Mathlib

/-!
Verification of the document-model conversion engine of the
`epub_to_markdown` repository.  The repository snapshot ships only the
project documentation and the GUI entry script; the conversion package
itself (`src/epub_converter/converter.py`, `utils.py`) is absent, so the
data model and the operations below are modelled from the specification
document, as marked in their doc comments.  A text document is modelled
throughout as the list of its lines.
-/

namespace Epub2Md

/-- Modelled from the spec: the whitespace character test used by the
Document Assembler's cleanup pass and by text normalization
(`converter.py`/`utils.py` are absent from `src/`). -/
def isWs (c : Char) : Bool := c == ' ' || c == '\t' || c == '\r' || c == '\n'

/-- Modelled from the spec: strip trailing whitespace from one line
(Document Assembler cleanup, spec 4.4). -/
def rstrip (s : String) : String := ⟨(s.data.reverse.dropWhile isWs).reverse⟩

/-- Modelled from the spec: what a pending run of `n` consecutive blank
lines becomes in the output; a run of three or more blank lines collapses
to exactly one blank line (spec 4.4). -/
def emitRun (n : Nat) : List String := List.replicate (if 3 ≤ n then 1 else n) ""

/-- Modelled from the spec: blank-line collapsing over the lines of the
document; the first argument counts pending consecutive blank lines. -/
def collapseAux : Nat → List String → List String
  | p, [] => emitRun p
  | p, l :: rest =>
    if l = "" then collapseAux (p + 1) rest
    else emitRun p ++ l :: collapseAux 0 rest

/-- Modelled from the spec: the Document Assembler's cleanup pass, applied
after full concatenation: strip trailing whitespace from every line, then
collapse every run of three or more consecutive blank lines to exactly one
(spec 4.4). -/
def cleanupLines (ls : List String) : List String := collapseAux 0 (ls.map rstrip)

/-- Statement predicate: the list of lines contains no three consecutive
blank lines. -/
def noTripleBlank : List String → Bool
  | a :: b :: c :: rest =>
    (!(a == "" && b == "" && c == "")) && noTripleBlank (b :: c :: rest)
  | _ => true

theorem collapseAux_nil (p : Nat) : collapseAux p [] = emitRun p := rfl

theorem collapseAux_blank (p : Nat) (rest : List String) :
    collapseAux p ("" :: rest) = collapseAux (p + 1) rest := by
  simp [collapseAux]

theorem collapseAux_cons {l : String} (hl : l ≠ "") (p : Nat) (rest : List String) :
    collapseAux p (l :: rest) = emitRun p ++ l :: collapseAux 0 rest := by
  rw [collapseAux, if_neg hl]

theorem emitRun_zero : emitRun 0 = [] := rfl

theorem dropWhile_idem {α : Type} (p : α → Bool) (l : List α) :
    List.dropWhile p (List.dropWhile p l) = List.dropWhile p l := by
  induction l with
  | nil => rfl
  | cons a t ih =>
    by_cases h : p a = true
    · simp [List.dropWhile, h, ih]
    · simp [List.dropWhile, h]

theorem rstrip_rstrip (s : String) : rstrip (rstrip s) = rstrip s := by
  unfold rstrip
  apply congrArg
  apply congrArg
  simp [dropWhile_idem]

theorem rstrip_empty : rstrip "" = "" := rfl

theorem mem_emitRun {l : String} {p : Nat} (h : l ∈ emitRun p) : l = "" :=
  List.eq_of_mem_replicate h

theorem mem_collapseAux :
    ∀ (zs : List String) (p : Nat) (l : String), l ∈ collapseAux p zs → l = "" ∨ l ∈ zs := by
  intro zs
  induction zs with
  | nil => intro p l h; exact Or.inl (mem_emitRun h)
  | cons x rest ih =>
    intro p l h
    by_cases hx : x = ""
    · simp only [collapseAux, hx, if_pos rfl] at h
      rcases ih (p + 1) l h with h1 | h1
      · exact Or.inl h1
      · exact Or.inr (List.mem_cons_of_mem _ h1)
    · simp only [collapseAux, if_neg hx] at h
      rcases List.mem_append.mp h with h1 | h1
      · exact Or.inl (mem_emitRun h1)
      · rcases List.mem_cons.mp h1 with h2 | h2
        · exact Or.inr (by simp [h2])
        · rcases ih 0 l h2 with h3 | h3
          · exact Or.inl h3
          · exact Or.inr (List.mem_cons_of_mem _ h3)

theorem cleanup_rstrip_fixed (ls : List String) :
    ∀ l ∈ cleanupLines ls, rstrip l = l := by
  intro l hl
  rcases mem_collapseAux _ 0 l hl with h | h
  · rw [h]; rfl
  · rcases List.mem_map.mp h with ⟨x, _, hx⟩
    rw [← hx]; exact rstrip_rstrip x

theorem ntb_tail {a : String} {zs : List String}
    (h : noTripleBlank (a :: zs) = true) : noTripleBlank zs = true := by
  match zs with
  | [] => rfl
  | [b] => rfl
  | b :: c :: r =>
    simp only [noTripleBlank, Bool.and_eq_true] at h
    exact h.2

theorem ntb_cons {a : String} {zs : List String} (ha : a ≠ "")
    (h : noTripleBlank zs = true) : noTripleBlank (a :: zs) = true := by
  match zs with
  | [] => rfl
  | [b] => rfl
  | b :: c :: r =>
    have ha2 : (a == "") = false := beq_eq_false_iff_ne.mpr ha
    simp only [noTripleBlank, ha2, Bool.false_and, Bool.not_false, Bool.true_and]
    exact h

theorem ntb_blank1 {l : String} {zs : List String} (hl : l ≠ "")
    (h : noTripleBlank (l :: zs) = true) : noTripleBlank ("" :: l :: zs) = true := by
  match zs with
  | [] => rfl
  | c :: r =>
    have hl2 : (l == "") = false := beq_eq_false_iff_ne.mpr hl
    simp only [noTripleBlank, hl2, beq_self_eq_true, Bool.true_and, Bool.false_and,
      Bool.not_false]
    exact h

theorem ntb_blank2 {l : String} {zs : List String} (hl : l ≠ "")
    (h : noTripleBlank (l :: zs) = true) : noTripleBlank ("" :: "" :: l :: zs) = true := by
  have h1 := ntb_blank1 hl h
  have hl2 : (l == "") = false := beq_eq_false_iff_ne.mpr hl
  simp only [noTripleBlank, hl2, beq_self_eq_true, Bool.true_and, Bool.false_and,
    Bool.and_false, Bool.not_false]
  exact h1

theorem emitRun_cases (p : Nat) :
    emitRun p = [] ∨ emitRun p = [""] ∨ emitRun p = ["", ""] := by
  match p with
  | 0 => exact Or.inl rfl
  | 1 => exact Or.inr (Or.inl rfl)
  | 2 => exact Or.inr (Or.inr rfl)
  | n + 3 =>
    refine Or.inr (Or.inl ?_)
    simp [emitRun, Nat.le_add_left]

theorem ntb_emitRun (p : Nat) : noTripleBlank (emitRun p) = true := by
  rcases emitRun_cases p with h | h | h <;> rw [h] <;> rfl

theorem ntb_emitRun_append {l : String} {zs : List String} (hl : l ≠ "")
    (h : noTripleBlank (l :: zs) = true) (p : Nat) :
    noTripleBlank (emitRun p ++ l :: zs) = true := by
  rcases emitRun_cases p with he | he | he <;> rw [he]
  · simpa using h
  · simpa using ntb_blank1 hl h
  · simpa using ntb_blank2 hl h

theorem collapse_ntb : ∀ (zs : List String) (p : Nat), noTripleBlank (collapseAux p zs) = true := by
  intro zs
  induction zs with
  | nil => intro p; exact ntb_emitRun p
  | cons l rest ih =>
    intro p
    by_cases hl : l = ""
    · simp only [collapseAux, hl, if_pos rfl]
      exact ih (p + 1)
    · simp only [collapseAux, if_neg hl]
      exact ntb_emitRun_append hl (ntb_cons hl (ih 0)) p

theorem cleanup_ntb (ls : List String) : noTripleBlank (cleanupLines ls) = true :=
  collapse_ntb (ls.map rstrip) 0

theorem collapse_passthrough :
    ∀ (xs rest : List String), (∀ x ∈ xs, x ≠ "") →
      collapseAux 0 (xs ++ rest) = xs ++ collapseAux 0 rest := by
  intro xs
  induction xs with
  | nil => intro rest _; rfl
  | cons x t ih =>
    intro rest h
    have hx : x ≠ "" := h x (by simp)
    rw [List.cons_append, collapseAux_cons hx, emitRun_zero,
      ih rest (fun y hy => h y (by simp [hy])), List.nil_append, List.cons_append]

theorem collapse_blanks_shift :
    ∀ (n : Nat) (rest : List String) (p : Nat),
      collapseAux p (List.replicate n "" ++ rest) = collapseAux (p + n) rest := by
  intro n
  induction n with
  | zero => intro rest p; rfl
  | succ m ih =>
    intro rest p
    rw [List.replicate_succ, List.cons_append, collapseAux_blank, ih rest (p + 1)]
    have hpm : p + 1 + m = p + (m + 1) := by omega
    rw [hpm]

theorem emitRun_big {n : Nat} (h : 3 ≤ n) : emitRun n = [""] := by
  simp [emitRun, if_pos h]

/-- C4: after full concatenation, the Document Assembler's cleanup pass
strips trailing whitespace from every output line, leaves no run of three
or more consecutive blank lines, and replaces a maximal run of three or
more blank lines with exactly one blank line. -/
theorem cleanup_collapses_and_trims :
    (∀ ls : List String, ∀ l ∈ cleanupLines ls, rstrip l = l) ∧
    (∀ ls : List String, noTripleBlank (cleanupLines ls) = true) ∧
    (∀ (xs ys : List String) (n : Nat), 3 ≤ n →
      (∀ x ∈ xs, rstrip x ≠ "") → (∀ y ∈ ys.take 1, rstrip y ≠ "") →
      cleanupLines (xs ++ List.replicate n "" ++ ys) =
        xs.map rstrip ++ "" :: cleanupLines ys) := by
  refine ⟨cleanup_rstrip_fixed, cleanup_ntb, ?_⟩
  intro xs ys n hn hxs hys
  have hmapne : ∀ x ∈ xs.map rstrip, x ≠ "" := by
    intro x hx
    rcases List.mem_map.mp hx with ⟨y, hy, hxy⟩
    rw [← hxy]; exact hxs y hy
  unfold cleanupLines
  rw [List.map_append, List.map_append]
  have hrep : (List.replicate n "").map rstrip = List.replicate n "" := by
    rw [List.map_replicate]; rfl
  rw [hrep, List.append_assoc]
  rw [collapse_passthrough (xs.map rstrip) _ hmapne]
  rw [collapse_blanks_shift n (ys.map rstrip) 0]
  have h0n : 0 + n = n := by omega
  rw [h0n]
  apply congrArg
  match ys with
  | [] =>
    rw [List.map_nil, collapseAux_nil, collapseAux_nil, emitRun_big hn, emitRun_zero]
  | y :: t =>
    have hy : rstrip y ≠ "" := hys y (by simp)
    rw [List.map_cons, collapseAux_cons hy, collapseAux_cons hy, emitRun_big hn,
      emitRun_zero, List.nil_append]
    rfl

/-- Witness for C4 at concrete inputs. -/
theorem cleanup_collapses_and_trims_witness :
    rstrip "a" = "a" ∧
    cleanupLines (["x"] ++ List.replicate 3 "" ++ ["y"]) =
      ["x"].map rstrip ++ "" :: cleanupLines ["y"] :=
  ⟨cleanup_collapses_and_trims.1 ["a "] "a" (by decide),
   cleanup_collapses_and_trims.2.2 ["x"] ["y"] 3 (by decide) (by decide) (by decide)⟩

theorem collapse_fixed : ∀ zs : List String, noTripleBlank zs = true → collapseAux 0 zs = zs
  | [], _ => rfl
  | [l], _ => by
    by_cases hl : l = ""
    · subst hl
      rw [collapseAux_blank, collapseAux_nil]
      rfl
    · rw [collapseAux_cons hl, collapseAux_nil, emitRun_zero]
      simp
  | [l, m], _ => by
    by_cases hl : l = ""
    · subst hl
      rw [collapseAux_blank]
      by_cases hm : m = ""
      · subst hm
        rw [collapseAux_blank, collapseAux_nil]
        rfl
      · rw [collapseAux_cons hm, collapseAux_nil, emitRun_zero]
        rfl
    · rw [collapseAux_cons hl, emitRun_zero, List.nil_append]
      by_cases hm : m = ""
      · subst hm
        rw [collapseAux_blank, collapseAux_nil]
        rfl
      · rw [collapseAux_cons hm, collapseAux_nil, emitRun_zero]
        simp
  | l :: m :: k :: rest, h => by
    have htail : noTripleBlank (m :: k :: rest) = true := ntb_tail h
    by_cases hl : l = ""
    · by_cases hm : m = ""
      · have hk : k ≠ "" := by
          intro hk0
          subst hl; subst hm; subst hk0
          simp [noTripleBlank] at h
        have hr : noTripleBlank rest = true := ntb_tail (ntb_tail htail)
        have ih := collapse_fixed rest hr
        subst hl; subst hm
        rw [collapseAux_blank, collapseAux_blank, collapseAux_cons hk, ih]
        rfl
      · have hr : noTripleBlank (k :: rest) = true := ntb_tail htail
        have ih := collapse_fixed (k :: rest) hr
        subst hl
        rw [collapseAux_blank, collapseAux_cons hm, ih]
        rfl
    · have ih := collapse_fixed (m :: k :: rest) htail
      rw [collapseAux_cons hl, ih, emitRun_zero, List.nil_append]

theorem map_id_of_mem {α : Type} (f : α → α) :
    ∀ l : List α, (∀ x ∈ l, f x = x) → l.map f = l := by
  intro l
  induction l with
  | nil => intro _; rfl
  | cons a t ih =>
    intro h
    simp only [List.map_cons]
    rw [h a (by simp), ih (fun x hx => h x (by simp [hx]))]

/-- C5: the cleanup pass (blank-line collapsing plus trailing-whitespace
trimming) is idempotent: applying it twice yields exactly the result of
applying it once. -/
theorem cleanup_idempotent : ∀ ls : List String, cleanupLines (cleanupLines ls) = cleanupLines ls := by
  intro ls
  show collapseAux 0 ((cleanupLines ls).map rstrip) = cleanupLines ls
  rw [map_id_of_mem rstrip (cleanupLines ls) (cleanup_rstrip_fixed ls)]
  exact collapse_fixed (cleanupLines ls) (cleanup_ntb ls)

/-- Helper for the longest backtick run: scans the characters, tracking the
current run length and the best run seen so far. -/
def maxRunAux : List Char → Nat → Nat → Nat
  | [], cur, best => max cur best
  | c :: rest, cur, best =>
    if c = '`' then maxRunAux rest (cur + 1) best
    else maxRunAux rest 0 (max cur best)

/-- Modelled from the spec: the length of the longest run of consecutive
backticks occurring in a code block's content (spec 4.2, code-block row;
`converter.py` is absent from `src/`). -/
def longestBacktickRun (s : String) : Nat := maxRunAux s.data 0 0

/-- Modelled from the spec: the fence length for a code block: a minimum of
three backticks, extended until it exceeds any backtick run already present
in the content. -/
def fenceLen (s : String) : Nat := max 3 (longestBacktickRun s + 1)

/-- The fence delimiter string chosen for a code block. -/
def fenceStr (s : String) : String := ⟨List.replicate (fenceLen s) '`'⟩

/-- Modelled from the spec: the Markdown Renderer's code-block output: the
chosen fence, the content verbatim, and the closing fence. -/
def renderCodeBlock (s : String) : String :=
  fenceStr s ++ "\n" ++ s ++ "\n" ++ fenceStr s

theorem maxRunAux_ge : ∀ (xs : List Char) (cur best : Nat), max cur best ≤ maxRunAux xs cur best := by
  intro xs
  induction xs with
  | nil => intro cur best; exact Nat.le_refl _
  | cons c rest ih =>
    intro cur best
    by_cases hc : c = '`'
    · rw [maxRunAux, if_pos hc]
      exact le_trans (max_le_max (Nat.le_succ cur) (Nat.le_refl best)) (ih (cur + 1) best)
    · rw [maxRunAux, if_neg hc]
      exact le_trans (le_max_right 0 (max cur best)) (ih 0 (max cur best))

theorem maxRunAux_mono :
    ∀ (xs : List Char) (c1 b1 c2 b2 : Nat), c1 ≤ c2 → b1 ≤ b2 →
      maxRunAux xs c1 b1 ≤ maxRunAux xs c2 b2 := by
  intro xs
  induction xs with
  | nil => intro c1 b1 c2 b2 hc hb; exact max_le_max hc hb
  | cons c rest ih =>
    intro c1 b1 c2 b2 hc hb
    by_cases h : c = '`'
    · rw [maxRunAux, if_pos h, maxRunAux, if_pos h]
      exact ih (c1 + 1) b1 (c2 + 1) b2 (Nat.succ_le_succ hc) hb
    · rw [maxRunAux, if_neg h, maxRunAux, if_neg h]
      exact ih 0 (max c1 b1) 0 (max c2 b2) (Nat.le_refl 0) (max_le_max hc hb)

theorem maxRunAux_drop :
    ∀ (pre xs : List Char) (cur best : Nat),
      maxRunAux xs 0 0 ≤ maxRunAux (pre ++ xs) cur best := by
  intro pre
  induction pre with
  | nil => intro xs cur best; exact maxRunAux_mono xs 0 0 cur best (Nat.zero_le _) (Nat.zero_le _)
  | cons c t ih =>
    intro xs cur best
    by_cases h : c = '`'
    · rw [List.cons_append, maxRunAux, if_pos h]
      exact ih xs (cur + 1) best
    · rw [List.cons_append, maxRunAux, if_neg h]
      exact ih xs 0 (max cur best)

theorem backtick_run_three {s : String} (h : ("```" : String).data <:+: s.data) :
    3 ≤ longestBacktickRun s := by
  rcases h with ⟨u, v, huv⟩
  have h1 : maxRunAux (("```" : String).data ++ v) 0 0 ≤ longestBacktickRun s := by
    unfold longestBacktickRun
    rw [← huv, List.append_assoc]
    exact maxRunAux_drop u _ 0 0
  refine le_trans ?_ h1
  show 3 ≤ maxRunAux ('`' :: '`' :: '`' :: v) 0 0
  rw [maxRunAux, if_pos rfl, maxRunAux, if_pos rfl, maxRunAux, if_pos rfl]
  exact le_trans (le_max_left 3 0) (maxRunAux_ge v 3 0)

/-- C3: for every code block the Renderer chooses a fence of at least three
backticks, strictly longer than the longest backtick run in the content,
emits the content verbatim between the fences, and in particular a content
containing the literal run of three backticks (as in a literal
triple-backtick-quoted `nested`) gets a fence of four or more backticks. -/
theorem render_code_fence : ∀ content : String,
    3 ≤ fenceLen content ∧
    longestBacktickRun content < fenceLen content ∧
    renderCodeBlock content =
      fenceStr content ++ "\n" ++ content ++ "\n" ++ fenceStr content ∧
    (("```" : String).data <:+: content.data → 4 ≤ fenceLen content) := by
  intro content
  refine ⟨le_max_left 3 _, ?_, rfl, ?_⟩
  · exact lt_of_lt_of_le (Nat.lt_succ_self _) (le_max_right 3 _)
  · intro h
    have h3 := backtick_run_three h
    calc (4 : Nat) ≤ longestBacktickRun content + 1 := by omega
    _ ≤ fenceLen content := le_max_right 3 _

/-- Witness for C3 at the concrete content from the spec's example. -/
theorem render_code_fence_witness : 4 ≤ fenceLen "```nested```" :=
  (render_code_fence "```nested```").2.2.2 ⟨[], ("nested```" : String).data, rfl⟩

/-- Modelled from the spec: a media asset: the path as referenced inside the
chapter HTML, and the collision-free output-relative path assigned by the
extraction collaborator (spec 3, MediaAsset; `converter.py` is absent from
`src/`). -/
structure MediaAsset where
  original_ref : String
  output_path : String
  deriving DecidableEq

/-- Modelled from the spec: the Markdown Renderer's image transform: look up
the asset by its original reference; on a hit emit the rewritten path, on a
miss emit the original (unrewritten) reference and append one warning naming
it; a missing asset is never fatal (spec 4.2 image row and its error
handling note). -/
def renderImage (assets : List MediaAsset) (src alt : String) : String × List String :=
  match assets.find? (fun a => a.original_ref == src) with
  | some a => ("![" ++ alt ++ "](" ++ a.output_path ++ ")", [])
  | none => ("![" ++ alt ++ "](" ++ src ++ ")", ["image asset not found: " ++ src])

/-- C6: when an image's reference is absent from the asset set, rendering
still succeeds, the image is emitted with its original unrewritten
reference, and exactly one warning naming that reference is produced. -/
theorem render_image_missing_asset :
    ∀ (assets : List MediaAsset) (src alt : String),
      assets.find? (fun a => a.original_ref == src) = none →
      (renderImage assets src alt).1 = "![" ++ alt ++ "](" ++ src ++ ")" ∧
      (renderImage assets src alt).2 = ["image asset not found: " ++ src] ∧
      (renderImage assets src alt).2.length = 1 := by
  intro assets src alt h
  refine ⟨?_, ?_, ?_⟩ <;> simp [renderImage, h]

/-- Witness for C6 at a concrete missing reference. -/
theorem render_image_missing_asset_witness :
    (renderImage [⟨"cover.jpg", "images/cover.jpg"⟩] "missing.png" "pic").1 =
      "![" ++ "pic" ++ "](" ++ "missing.png" ++ ")" ∧
    (renderImage [⟨"cover.jpg", "images/cover.jpg"⟩] "missing.png" "pic").2 =
      ["image asset not found: " ++ "missing.png"] ∧
    (renderImage [⟨"cover.jpg", "images/cover.jpg"⟩] "missing.png" "pic").2.length = 1 :=
  render_image_missing_asset [⟨"cover.jpg", "images/cover.jpg"⟩] "missing.png" "pic" (by decide)

/-- Modelled from the spec: the metadata record handed to the core by the
excluded extraction collaborator (spec 3, five named fields, each possibly
absent). -/
structure Metadata where
  title : Option String
  author : Option String
  language : Option String
  publisher : Option String
  description : Option String
  deriving DecidableEq

/-- Modelled from the spec: one optional front-matter field: a present field
contributes its key-value pair, an absent field contributes nothing. -/
def optPair (k : String) : Option String → List (String × String)
  | some v => [(k, v)]
  | none => []

/-- Modelled from the spec: the front-matter fields of a metadata record, in
the fixed key order, with absent fields omitted entirely (spec 4.4). -/
def frontMatterFields (m : Metadata) : List (String × String) :=
  optPair "title" m.title ++ optPair "author" m.author ++ optPair "language" m.language ++
    optPair "publisher" m.publisher ++ optPair "description" m.description

/-- Modelled from the spec: one front-matter line: the key, a colon, and the
value as a quoted string. -/
def quoteLine (p : String × String) : String := p.1 ++ ": \"" ++ p.2 ++ "\""

/-- Modelled from the spec: the YAML front-matter block: the present fields
as quoted strings between two lines of three dashes; no block is emitted
when no field is present (spec 4.4 and 6). -/
def frontMatter (m : Metadata) : List String :=
  match frontMatterFields m with
  | [] => []
  | fs => "---" :: fs.map quoteLine ++ ["---"]

theorem mem_optPair {k k2 t : String} {o : Option String} :
    (k, t) ∈ optPair k2 o ↔ (k = k2 ∧ o = some t) := by
  cases o with
  | none => simp [optPair]
  | some v =>
    simp only [optPair, List.mem_singleton, Prod.mk.injEq, Option.some.injEq]
    constructor
    · rintro ⟨h1, h2⟩; exact ⟨h1, h2.symm⟩
    · rintro ⟨h1, h2⟩; exact ⟨h1, h2.symm⟩

theorem ne_key_ta : ("title" : String) ≠ "author" := by decide
theorem ne_key_tl : ("title" : String) ≠ "language" := by decide
theorem ne_key_tp : ("title" : String) ≠ "publisher" := by decide
theorem ne_key_td : ("title" : String) ≠ "description" := by decide
theorem ne_key_at : ("author" : String) ≠ "title" := by decide
theorem ne_key_al : ("author" : String) ≠ "language" := by decide
theorem ne_key_ap : ("author" : String) ≠ "publisher" := by decide
theorem ne_key_ad : ("author" : String) ≠ "description" := by decide
theorem ne_key_lt : ("language" : String) ≠ "title" := by decide
theorem ne_key_la : ("language" : String) ≠ "author" := by decide
theorem ne_key_lp : ("language" : String) ≠ "publisher" := by decide
theorem ne_key_ld : ("language" : String) ≠ "description" := by decide
theorem ne_key_pt : ("publisher" : String) ≠ "title" := by decide
theorem ne_key_pa : ("publisher" : String) ≠ "author" := by decide
theorem ne_key_pl : ("publisher" : String) ≠ "language" := by decide
theorem ne_key_pd : ("publisher" : String) ≠ "description" := by decide
theorem ne_key_dt : ("description" : String) ≠ "title" := by decide
theorem ne_key_da : ("description" : String) ≠ "author" := by decide
theorem ne_key_dl : ("description" : String) ≠ "language" := by decide
theorem ne_key_dp : ("description" : String) ≠ "publisher" := by decide

theorem mem_fields_iff {m : Metadata} {k t : String} :
    (k, t) ∈ frontMatterFields m ↔
      ((k = "title" ∧ m.title = some t) ∨ (k = "author" ∧ m.author = some t) ∨
       (k = "language" ∧ m.language = some t) ∨ (k = "publisher" ∧ m.publisher = some t) ∨
       (k = "description" ∧ m.description = some t)) := by
  simp only [frontMatterFields, List.mem_append, mem_optPair]
  tauto

/-- C7: the emitted front matter contains exactly the present metadata
fields among title, author, language, publisher, description, each as a
quoted string, and omits absent fields entirely; with only `title` set the
block contains only the title line between the two dash delimiters. -/
theorem front_matter_present_fields :
    (∀ (m : Metadata) (t : String),
      (("title", t) ∈ frontMatterFields m ↔ m.title = some t) ∧
      (("author", t) ∈ frontMatterFields m ↔ m.author = some t) ∧
      (("language", t) ∈ frontMatterFields m ↔ m.language = some t) ∧
      (("publisher", t) ∈ frontMatterFields m ↔ m.publisher = some t) ∧
      (("description", t) ∈ frontMatterFields m ↔ m.description = some t)) ∧
    (∀ t : String,
      frontMatter ⟨some t, none, none, none, none⟩ =
        ["---", quoteLine ("title", t), "---"]) := by
  constructor
  · intro m t
    refine ⟨?_, ?_, ?_, ?_, ?_⟩ <;>
      rw [mem_fields_iff] <;>
      simp [ne_key_ta, ne_key_tl, ne_key_tp, ne_key_td, ne_key_at, ne_key_al, ne_key_ap,
        ne_key_ad, ne_key_lt, ne_key_la, ne_key_lp, ne_key_ld, ne_key_pt, ne_key_pa,
        ne_key_pl, ne_key_pd, ne_key_dt, ne_key_da, ne_key_dl, ne_key_dp]
  · intro t
    rfl

/-- Modelled from the spec: the Node Model: an immutable tree representing
one chapter's content (spec 3, ContentNode; `converter.py` is absent from
`src/`).  Attributes are narrowed to the ones the Heading Classifier and
Renderer consult: class names on blocks and inline spans, source and
alternative text on images. -/
inductive ContentNode where
  | text (s : String)
  | heading (level : Nat) (children : List ContentNode)
  | paragraph (classes : List String) (children : List ContentNode)
  | span (classes : List String) (children : List ContentNode)
  | strong (children : List ContentNode)
  | emph (children : List ContentNode)
  | image (src : String) (alt : String)
  | codeBlock (content : String)
  | table (children : List ContentNode)
  | listItem (children : List ContentNode)
  | generic (children : List ContentNode)

mutual

/-- Modelled from the spec: the raw text content of a node: concatenation of
its text leaves (code blocks expose their content). -/
def nodeText : ContentNode → String
  | ContentNode.text s => s
  | ContentNode.heading _ ch => listText ch
  | ContentNode.paragraph _ ch => listText ch
  | ContentNode.span _ ch => listText ch
  | ContentNode.strong ch => listText ch
  | ContentNode.emph ch => listText ch
  | ContentNode.image _ _ => ""
  | ContentNode.codeBlock s => s
  | ContentNode.table ch => listText ch
  | ContentNode.listItem ch => listText ch
  | ContentNode.generic ch => listText ch

/-- Raw text content of a list of sibling nodes. -/
def listText : List ContentNode → String
  | [] => ""
  | c :: rest => nodeText c ++ listText rest

end

/-- Splits a character list into maximal whitespace-free words; the
accumulator holds the current word reversed. -/
def splitWsAux : List Char → List Char → List String
  | [], cur => if cur.isEmpty then [] else [⟨cur.reverse⟩]
  | c :: rest, cur =>
    if isWs c then
      if cur.isEmpty then splitWsAux rest []
      else (⟨cur.reverse⟩ : String) :: splitWsAux rest []
    else splitWsAux rest (c :: cur)

/-- Modelled from the spec: whitespace normalization of heading text:
internal whitespace collapsed to single spaces, leading and trailing
whitespace trimmed (spec 3, HeadingCandidate.text, and 4.2 plain-text
row). -/
def collapseWs (s : String) : String :=
  String.intercalate " " (splitWsAux s.data [])

/-- Modelled from the spec: the normalized text of a node. -/
def normText (n : ContentNode) : String := collapseWs (nodeText n)

/-- Modelled from the spec: a heading discovered in a chapter: a level in
1..6, the normalized text, and an anchor derived from the chapter id plus a
slug of the text (spec 3, HeadingCandidate). -/
structure HeadingCandidate where
  level : Nat
  text : String
  anchor : String
  deriving DecidableEq

/-- Modelled from the spec: the local context handed to the Heading
Classifier (spec 4.1): isolation within the containing block, the nearest
previously assigned heading level, the chapter's cumulative heading count,
the chapter-global position of the node, the exclusion flags (inside a
table, inside a code block, consumed by a list item, chapter excluded from
the outline), and the chapter id used for anchors. -/
structure ClassifyContext where
  isolated : Bool
  prevLevel : Option Nat
  headingCount : Nat
  chapterPosition : Nat
  inTable : Bool
  inCode : Bool
  inListItem : Bool
  chapterExcluded : Bool
  chapterId : String

/-- Modelled from the spec: a heading tag's numeral clamped to the interval
from 1 to 6 (spec 4.1 rule 1). -/
def clampLevel (n : Nat) : Nat := max 1 (min 6 n)

/-- Modelled from the spec: the anchor slug: spaces become dashes and ASCII
letters are lowercased. -/
def slug (t : String) : String :=
  ⟨t.data.map (fun c => if c = ' ' then '-' else c.toLower)⟩

/-- Modelled from the spec: the anchor of a candidate: chapter id plus the
generated slug. -/
def mkAnchor (chid : String) (t : String) : String := chid ++ "-" ++ slug t

/-- The tag numeral of a standard heading node, if the node is one. -/
def headingLevelOf : ContentNode → Option Nat
  | ContentNode.heading k _ => some k
  | _ => none

/-- Whether the node is a text-bearing block or inline span, the only kinds
rule 2 of the Classifier applies to (spec 4.1 rule 2). -/
def isTextBlock : ContentNode → Bool
  | ContentNode.paragraph _ _ => true
  | ContentNode.span _ _ => true
  | _ => false

/-- The class names attached to a block or inline span. -/
def classesOf : ContentNode → List String
  | ContentNode.paragraph cls _ => cls
  | ContentNode.span cls _ => cls
  | _ => []

/-- The immediate children of a node. -/
def childrenOf : ContentNode → List ContentNode
  | ContentNode.text _ => []
  | ContentNode.heading _ ch => ch
  | ContentNode.paragraph _ ch => ch
  | ContentNode.span _ ch => ch
  | ContentNode.strong ch => ch
  | ContentNode.emph ch => ch
  | ContentNode.image _ _ => []
  | ContentNode.codeBlock _ => []
  | ContentNode.table ch => ch
  | ContentNode.listItem ch => ch
  | ContentNode.generic ch => ch

/-- Whether some immediate child is a bold-equivalent wrapper. -/
def hasStrongChild : List ContentNode → Bool
  | [] => false
  | ContentNode.strong _ :: _ => true
  | _ :: rest => hasStrongChild rest

/-- Modelled from the spec: a recognized heading-like class name; the spec
(spec 9) treats the precise set as a tuned, configurable constant. -/
def isHeadingLikeClass (c : String) : Bool :=
  c == "bold" || c == "calibre-bold" || c == "title" || c == "heading"

/-- Modelled from the spec: markup signalling emphasis consistent with a
title: a bold-equivalent class name or a bold-equivalent wrapped child
(spec 4.1 rule 2). -/
def boldSignal (n : ContentNode) : Bool :=
  (classesOf n).any isHeadingLikeClass || hasStrongChild (childrenOf n)

/-- Modelled from the spec: a table-of-contents entry pattern: a dotted
leader followed by a number, or a trailing page-number token; both end in a
trailing digit after normalization (spec 4.1 rule 2). -/
def looksLikeTocEntry (t : String) : Bool :=
  match t.data.reverse with
  | c :: _ => c.isDigit
  | [] => false

/-- A Chinese numeral character usable inside a parenthesized section
marker. -/
def isCnNum (c : Char) : Bool :=
  c = '一' || c = '二' || c = '三' || c = '四' || c = '五' || c = '六' || c = '七' ||
    c = '八' || c = '九' || c = '十' || c = '百' || c = '零'

/-- After the opening fullwidth parenthesis: a nonempty run of Chinese
numerals, the closing fullwidth parenthesis, then optional short title
text. -/
def markerNum (l : List Char) : Bool :=
  match l.dropWhile isCnNum with
  | c :: rest => c = '）' && !(l.takeWhile isCnNum).isEmpty && rest.length < 40
  | [] => false

/-- Modelled from the spec: whether normalized text matches a Chinese
parenthesized-numeral section marker such as （一）, （二）, optionally
followed by short title text (spec 4.1 rule 3). -/
def matchesChineseMarker (t : String) : Bool :=
  match t.data with
  | c :: rest => c = '（' && markerNum rest
  | [] => false

/-- Modelled from the spec: rule 2 of the Heading Classifier: a short,
isolated text-bearing block whose markup signals title-like emphasis, whose
normalized text is nonempty and under the short-text cutoff, and whose text
does not look like a table-of-contents entry (spec 4.1 rule 2). -/
def ruleTwo (n : ContentNode) (ctx : ClassifyContext) : Bool :=
  isTextBlock n && boldSignal n && ctx.isolated && !(normText n == "") &&
    decide ((normText n).length < 40) && !(looksLikeTocEntry (normText n))

/-- Modelled from the spec: the Heading Classifier (spec 4.1): after the
exclusion checks, the three rules are evaluated in fixed priority order and
the first match wins: standard heading tag with clamped numeral; short
isolated bold title at level 2; Chinese parenthesized-numeral marker at one
level below the nearest prior heading (default 2), capped at 6. -/
def classify (n : ContentNode) (ctx : ClassifyContext) : Option HeadingCandidate :=
  if ctx.inTable || ctx.inCode || ctx.inListItem || ctx.chapterExcluded then none
  else
    match headingLevelOf n with
    | some k => some ⟨clampLevel k, normText n, mkAnchor ctx.chapterId (normText n)⟩
    | none =>
      if ruleTwo n ctx then some ⟨2, normText n, mkAnchor ctx.chapterId (normText n)⟩
      else if matchesChineseMarker (normText n) then
        some ⟨min 6 (ctx.prevLevel.getD 2 + 1), normText n,
          mkAnchor ctx.chapterId (normText n)⟩
      else none

/-- C1: every candidate the Classifier returns has a level between 1 and 6,
and for a standard heading tag the level is the tag's numeral clamped to
the interval from 1 to 6. -/
theorem classify_level_in_range :
    (∀ (n : ContentNode) (ctx : ClassifyContext) (hc : HeadingCandidate),
      classify n ctx = some hc → 1 ≤ hc.level ∧ hc.level ≤ 6) ∧
    (∀ (k : Nat) (ch : List ContentNode) (ctx : ClassifyContext) (hc : HeadingCandidate),
      classify (ContentNode.heading k ch) ctx = some hc → hc.level = clampLevel k) := by
  constructor
  · intro n ctx hc h
    unfold classify at h
    split at h
    · exact absurd h (by simp)
    · split at h
      · have h2 := Option.some.inj h
        subst h2
        show 1 ≤ clampLevel _ ∧ clampLevel _ ≤ 6
        unfold clampLevel
        omega
      · split at h
        · have h2 := Option.some.inj h
          subst h2
          show 1 ≤ 2 ∧ 2 ≤ 6
          omega
        · split at h
          · have h2 := Option.some.inj h
            subst h2
            show 1 ≤ min 6 (ctx.prevLevel.getD 2 + 1) ∧ min 6 (ctx.prevLevel.getD 2 + 1) ≤ 6
            omega
          · exact absurd h (by simp)
  · intro k ch ctx hc h
    unfold classify at h
    split at h
    · exact absurd h (by simp)
    · simp only [headingLevelOf] at h
      have h2 := Option.some.inj h
      subst h2
      rfl

/-- Witness for C1 at a concrete heading node. -/
theorem classify_level_in_range_witness :
    1 ≤ ({ level := 3, text := "", anchor := "ch-" } : HeadingCandidate).level ∧
    ({ level := 3, text := "", anchor := "ch-" } : HeadingCandidate).level ≤ 6 :=
  classify_level_in_range.1 (ContentNode.heading 3 [])
    ⟨true, none, 0, 0, false, false, false, false, "ch"⟩
    { level := 3, text := "", anchor := "ch-" } (by decide)

/-- C8 counterexample: the rules are evaluated in fixed priority order, so a
standard heading tag whose normalized text matches the Chinese
parenthesized-numeral marker keeps the tag's clamped numeral (here 2) and
does not get the marker level min 6 (previous + 1) = 3; the claim as stated
quantifies over every node whose text matches the marker. -/
theorem chinese_marker_priority_counterexample :
    matchesChineseMarker
      (normText (ContentNode.heading 2 [ContentNode.text "（一）引言"])) = true ∧
    classify (ContentNode.heading 2 [ContentNode.text "（一）引言"])
      ⟨true, none, 0, 0, false, false, false, false, "ch1"⟩ =
      some ⟨2, "（一）引言", mkAnchor "ch1" "（一）引言"⟩ ∧
    (2 : Nat) ≠ min 6 (((none : Option Nat)).getD 2 + 1) := by
  refine ⟨by decide, by decide, by decide⟩

/-- C8 amended: for every node that passes the exclusion checks and is not
claimed by an earlier rule (it is not a standard heading tag and the short
bold-title rule does not match), if its normalized text matches a Chinese
parenthesized-numeral section marker then the Classifier assigns level
min 6 (previous + 1), where the previous level defaults to 2 when no prior
heading exists in the chapter. -/
theorem chinese_marker_level_amended :
    ∀ (n : ContentNode) (ctx : ClassifyContext),
      (ctx.inTable || ctx.inCode || ctx.inListItem || ctx.chapterExcluded) = false →
      headingLevelOf n = none →
      ruleTwo n ctx = false →
      matchesChineseMarker (normText n) = true →
      classify n ctx =
        some ⟨min 6 (ctx.prevLevel.getD 2 + 1), normText n,
          mkAnchor ctx.chapterId (normText n)⟩ := by
  intro n ctx hexcl hhead hr2 hmark
  unfold classify
  rw [hexcl]
  simp only [Bool.false_eq_true, if_false, hhead, hr2, hmark, if_true]

/-- Witness for C8's amended theorem at a concrete marker paragraph with a
prior heading at level 3. -/
theorem chinese_marker_level_amended_witness :
    classify (ContentNode.paragraph [] [ContentNode.text "（二）方法"])
      ⟨true, some 3, 0, 0, false, false, false, false, "c2"⟩ =
      some ⟨min 6 (((some 3 : Option Nat)).getD 2 + 1),
        normText (ContentNode.paragraph [] [ContentNode.text "（二）方法"]),
        mkAnchor "c2" (normText (ContentNode.paragraph [] [ContentNode.text "（二）方法"]))⟩ :=
  chinese_marker_level_amended (ContentNode.paragraph [] [ContentNode.text "（二）方法"])
    ⟨true, some 3, 0, 0, false, false, false, false, "c2"⟩
    (by decide) (by decide) (by decide) (by decide)

/-- The isolation flag the walk hands to the children of a node: children
are effectively alone when the containing block has at most one child. -/
def childIso (ch : List ContentNode) : Bool := decide (ch.length ≤ 1)

mutual

/-- Modelled from the spec: the walk that collects the ordered sequence of
HeadingCandidates of one chapter (spec 4.1 and 4.3): each node is
classified in its local context; a classified node contributes one
candidate and updates the nearest prior heading level; otherwise the walk
descends into the children, setting the table and list-item exclusion flags
on the way down. -/
def walkNode (chid : String) (excl tbl li iso : Bool) :
    ContentNode → Option Nat → List HeadingCandidate × Option Nat
  | ContentNode.text s, prev =>
    match classify (ContentNode.text s) ⟨iso, prev, 0, 0, tbl, false, li, excl, chid⟩ with
    | some hc => ([hc], some hc.level)
    | none => ([], prev)
  | ContentNode.heading k ch, prev =>
    match classify (ContentNode.heading k ch) ⟨iso, prev, 0, 0, tbl, false, li, excl, chid⟩ with
    | some hc => ([hc], some hc.level)
    | none => ([], prev)
  | ContentNode.paragraph cls ch, prev =>
    match classify (ContentNode.paragraph cls ch)
        ⟨iso, prev, 0, 0, tbl, false, li, excl, chid⟩ with
    | some hc => ([hc], some hc.level)
    | none => walkList chid excl tbl li (childIso ch) ch prev
  | ContentNode.span cls ch, prev =>
    match classify (ContentNode.span cls ch) ⟨iso, prev, 0, 0, tbl, false, li, excl, chid⟩ with
    | some hc => ([hc], some hc.level)
    | none => walkList chid excl tbl li (childIso ch) ch prev
  | ContentNode.strong ch, prev => walkList chid excl tbl li (childIso ch) ch prev
  | ContentNode.emph ch, prev => walkList chid excl tbl li (childIso ch) ch prev
  | ContentNode.image _ _, prev => ([], prev)
  | ContentNode.codeBlock _, prev => ([], prev)
  | ContentNode.table ch, prev => walkList chid excl true li (childIso ch) ch prev
  | ContentNode.listItem ch, prev => walkList chid excl tbl true (childIso ch) ch prev
  | ContentNode.generic ch, prev => walkList chid excl tbl li (childIso ch) ch prev

/-- The walk over a list of sibling nodes, threading the nearest prior
heading level left to right. -/
def walkList (chid : String) (excl tbl li iso : Bool) :
    List ContentNode → Option Nat → List HeadingCandidate × Option Nat
  | [], prev => ([], prev)
  | c :: rest, prev =>
    let r1 := walkNode chid excl tbl li iso c prev
    let r2 := walkList chid excl tbl li iso rest r1.2
    (r1.1 ++ r2.1, r2.2)

end

/-- Modelled from the spec: the candidate sequence of one chapter: the walk
started at the chapter root with no prior heading level (spec 4.3). -/
def collectChapter (chid : String) (excl : Bool) (root : ContentNode) : List HeadingCandidate :=
  (walkNode chid excl false false true root none).1

/-- C9: classification is deterministic and local: the Classifier's result
depends only on the node and the local context fields (isolation, nearest
prior heading level, exclusion flags, chapter id) and never on the
chapter-global position or the cumulative heading count, and re-running the
walk on the same chapter tree yields the identical candidate sequence. -/
theorem classify_local_deterministic :
    (∀ (n : ContentNode) (iso : Bool) (prev : Option Nat) (tbl code li exc : Bool)
        (chid : String) (hcount1 hcount2 pos1 pos2 : Nat),
      classify n ⟨iso, prev, hcount1, pos1, tbl, code, li, exc, chid⟩ =
        classify n ⟨iso, prev, hcount2, pos2, tbl, code, li, exc, chid⟩) ∧
    (∀ (chid : String) (excl : Bool) (root : ContentNode),
      collectChapter chid excl root = collectChapter chid excl root) := by
  exact ⟨fun n iso prev tbl code li exc chid hcount1 hcount2 pos1 pos2 => rfl,
    fun chid excl root => rfl⟩

/-- Modelled from the spec: a table-of-contents entry: title, anchor, the
heading level it was emitted at, and its ordered children (spec 3,
TocEntry; `converter.py` is absent from `src/`). -/
inductive TocEntry where
  | mk (title : String) (anchor : String) (level : Nat) (children : List TocEntry)

/-- The heading level of a table-of-contents entry. -/
def TocEntry.level : TocEntry → Nat
  | TocEntry.mk _ _ l _ => l

/-- The children of a table-of-contents entry. -/
def TocEntry.children : TocEntry → List TocEntry
  | TocEntry.mk _ _ _ ch => ch

mutual

/-- Statement predicate: within an entry, every child sits at a level
strictly greater than its parent's level, recursively. -/
def entryOk : TocEntry → Bool
  | TocEntry.mk _ _ l ch => childrenOk l ch

/-- Statement predicate: every entry of the list is nested strictly below
the given parent level and is itself well nested. -/
def childrenOk : Nat → List TocEntry → Bool
  | _, [] => true
  | l, e :: rest => decide (l < e.level) && entryOk e && childrenOk l rest

end

/-- Modelled from the spec: the Toc Builder's nesting step (spec 4.3): a new
candidate becomes a child of the most recently emitted entry at a level
strictly below its own — found along the rightmost spine of the forest —
or a sibling at the outline's root when no such entry exists. -/
def insertEntry : List TocEntry → TocEntry → List TocEntry
  | [], c => [c]
  | [TocEntry.mk t a l ch], c =>
    if l < c.level then [TocEntry.mk t a l (insertEntry ch c)]
    else [TocEntry.mk t a l ch, c]
  | e :: f :: rest, c => e :: insertEntry (f :: rest) c

/-- The leaf entry a heading candidate becomes when it is emitted. -/
def mkEntry (c : HeadingCandidate) : TocEntry := TocEntry.mk c.text c.anchor c.level []

/-- Modelled from the spec: the Toc Builder's build over an ordered
candidate sequence: candidates are emitted in order, each nested by the
insertion step (spec 4.3). -/
def buildToc (cs : List HeadingCandidate) : List TocEntry :=
  cs.foldl (fun f c => insertEntry f (mkEntry c)) []

theorem childrenOk_iff (l : Nat) (ch : List TocEntry) :
    childrenOk l ch = true ↔ ∀ e ∈ ch, l < e.level ∧ entryOk e = true := by
  induction ch with
  | nil => simp [childrenOk]
  | cons e rest ih =>
    simp only [childrenOk, Bool.and_eq_true, decide_eq_true_eq, List.mem_cons]
    constructor
    · rintro ⟨⟨h1, h2⟩, h3⟩ x hx
      rcases hx with hx | hx
      · subst hx; exact ⟨h1, h2⟩
      · exact (ih.mp h3) x hx
    · intro h
      refine ⟨⟨(h e (Or.inl rfl)).1, (h e (Or.inl rfl)).2⟩, ih.mpr ?_⟩
      intro x hx
      exact h x (Or.inr hx)

theorem insert_level_bound :
    ∀ (f : List TocEntry) (c : TocEntry) (b : Nat),
      (∀ e ∈ f, b < e.level) → b < c.level →
      ∀ e2 ∈ insertEntry f c, b < e2.level := by
  intro f
  induction f with
  | nil =>
    intro c b _ hc e2 he2
    simp only [insertEntry, List.mem_singleton] at he2
    subst he2; exact hc
  | cons x rest ih =>
    intro c b hf hc e2 he2
    match rest with
    | [] =>
      obtain ⟨t, a, l, ch⟩ := x
      by_cases hl : l < c.level
      · simp only [insertEntry, if_pos hl, List.mem_singleton] at he2
        subst he2
        exact hf (TocEntry.mk t a l ch) (by simp)
      · simp only [insertEntry, if_neg hl] at he2
        rcases List.mem_cons.mp he2 with h1 | h1
        · subst h1; exact hf (TocEntry.mk t a l ch) (by simp)
        · rcases List.mem_singleton.mp h1 with h2
          subst h2; exact hc
    | y :: rest2 =>
      simp only [insertEntry] at he2
      rcases List.mem_cons.mp he2 with h1 | h1
      · rw [h1]; exact hf x (by simp)
      · exact ih c b (fun e he => hf e (List.mem_cons_of_mem _ he)) hc e2 h1

theorem insert_all_ok :
    ∀ (f : List TocEntry) (c : TocEntry),
      (∀ e ∈ f, entryOk e = true) → entryOk c = true →
      ∀ e2 ∈ insertEntry f c, entryOk e2 = true
  | [], c, _, hc => by
    intro e2 he2
    simp only [insertEntry, List.mem_singleton] at he2
    subst he2; exact hc
  | [TocEntry.mk t a l ch], c, hf, hc => by
    intro e2 he2
    by_cases hl : l < c.level
    · simp only [insertEntry, if_pos hl, List.mem_singleton] at he2
      subst he2
      have hparent : entryOk (TocEntry.mk t a l ch) = true := hf _ (by simp)
      have hch : ∀ e ∈ ch, l < e.level ∧ entryOk e = true :=
        (childrenOk_iff l ch).mp hparent
      have hbound : ∀ e2 ∈ insertEntry ch c, l < e2.level :=
        insert_level_bound ch c l (fun e he => (hch e he).1) hl
      have hok : ∀ e2 ∈ insertEntry ch c, entryOk e2 = true :=
        insert_all_ok ch c (fun e he => (hch e he).2) hc
      show childrenOk l (insertEntry ch c) = true
      exact (childrenOk_iff l _).mpr (fun e he => ⟨hbound e he, hok e he⟩)
    · simp only [insertEntry, if_neg hl] at he2
      rcases List.mem_cons.mp he2 with h1 | h1
      · subst h1; exact hf _ (by simp)
      · rcases List.mem_singleton.mp h1 with h2
        subst h2; exact hc
  | e :: f :: rest, c, hf, hc => by
    intro e2 he2
    simp only [insertEntry] at he2
    rcases List.mem_cons.mp he2 with h1 | h1
    · rw [h1]; exact hf e (by simp)
    · exact insert_all_ok (f :: rest) c
        (fun x hx => hf x (List.mem_cons_of_mem _ hx)) hc e2 h1

theorem mkEntry_ok (c : HeadingCandidate) : entryOk (mkEntry c) = true := rfl

theorem buildToc_all_ok :
    ∀ (cs : List HeadingCandidate) (f : List TocEntry),
      (∀ e ∈ f, entryOk e = true) →
      ∀ e ∈ cs.foldl (fun g c => insertEntry g (mkEntry c)) f, entryOk e = true := by
  intro cs
  induction cs with
  | nil => intro f hf e he; exact hf e he
  | cons c rest ih =>
    intro f hf e he
    simp only [List.foldl_cons] at he
    exact ih (insertEntry f (mkEntry c))
      (insert_all_ok f (mkEntry c) hf (mkEntry_ok c)) e he

/-- C2: the outline the Toc Builder produces never contains a child entry
whose level is less than or equal to its parent's level, and a candidate
finding no previously emitted entry at a level strictly below its own
becomes a sibling at the outline's root. -/
theorem toc_nesting_invariant :
    (∀ cs : List HeadingCandidate, ∀ e ∈ buildToc cs, entryOk e = true) ∧
    (∀ (f : List TocEntry) (c : HeadingCandidate),
      (∀ e ∈ f, c.level ≤ e.level) → insertEntry f (mkEntry c) = f ++ [mkEntry c]) := by
  constructor
  · intro cs e he
    exact buildToc_all_ok cs [] (by simp) e he
  · intro f
    induction f with
    | nil => intro c _; rfl
    | cons x rest ih =>
      intro c hf
      match rest with
      | [] =>
        obtain ⟨t, a, l, ch⟩ := x
        have hl : ¬ l < (mkEntry c).level := by
          have := hf (TocEntry.mk t a l ch) (by simp)
          simp only [TocEntry.level] at this
          show ¬ l < c.level
          omega
        simp [insertEntry, if_neg hl]
      | y :: rest2 =>
        simp only [insertEntry, List.cons_append]
        rw [ih c (fun e he => hf e (List.mem_cons_of_mem _ he))]
        rfl

/-- Witness for C2 at concrete inputs: one entry already in the outline at
level 2 and a new candidate at the same level becomes a root sibling. -/
theorem toc_nesting_invariant_witness :
    insertEntry [mkEntry ⟨2, "A", "a"⟩] (mkEntry ⟨2, "B", "b"⟩) =
      [mkEntry ⟨2, "A", "a"⟩] ++ [mkEntry ⟨2, "B", "b"⟩] :=
  toc_nesting_invariant.2 [mkEntry ⟨2, "A", "a"⟩] ⟨2, "B", "b"⟩ (by
    intro e he
    simp only [List.mem_singleton] at he
    subst he
    exact Nat.le_refl 2)

/-- Modelled from the spec: the two runtime options of a conversion
(spec 3, ConversionOptions). -/
structure ConversionOptions where
  extract_images : Bool
  generate_toc : Bool

/-- Modelled from the spec: the result record of one pipeline run (spec 3,
ConversionResult). -/
structure ConversionResult where
  markdown : String
  image_count : Nat
  heading_count : Nat
  warnings : List String

/-- Modelled from the spec: one chapter document handed to the core:
a stable id, the owned content tree, and the outline-exclusion flag
(spec 3, ChapterDocument); the reading order is the list order. -/
structure ChapterDocument where
  id : String
  root : ContentNode
  is_excluded_from_outline : Bool

/-- Modelled from the spec: the parsed book handed to the conversion
pipeline by the excluded collaborators: ordered chapters, the metadata
record, and the asset set (spec 2 and 6). -/
structure BookModel where
  chapters : List ChapterDocument
  metadata : Metadata
  assets : List MediaAsset

/-- A repeated-hash heading marker of the given length. -/
def hashes (n : Nat) : String := ⟨List.replicate n '#'⟩

mutual

/-- Modelled from the spec: the Markdown Renderer's recursive node-to-text
transform (spec 4.2), restricted to the node kinds of this model: headings,
inline emphasis wrappers, images via the asset set, fenced code blocks, and
transparent pass-through for generic containers. -/
def renderNode (assets : List MediaAsset) : ContentNode → String
  | ContentNode.text s => s
  | ContentNode.heading k ch => "\n" ++ hashes (clampLevel k) ++ " " ++ collapseWs (listText ch) ++ "\n"
  | ContentNode.paragraph _ ch => renderListNodes assets ch ++ "\n\n"
  | ContentNode.span _ ch => renderListNodes assets ch
  | ContentNode.strong ch => "**" ++ renderListNodes assets ch ++ "**"
  | ContentNode.emph ch => "*" ++ renderListNodes assets ch ++ "*"
  | ContentNode.image src alt => (renderImage assets src alt).1
  | ContentNode.codeBlock s => renderCodeBlock s ++ "\n"
  | ContentNode.table ch => renderListNodes assets ch
  | ContentNode.listItem ch => "- " ++ renderListNodes assets ch ++ "\n"
  | ContentNode.generic ch => renderListNodes assets ch

/-- Rendering of a list of sibling nodes, concatenated in order. -/
def renderListNodes (assets : List MediaAsset) : List ContentNode → String
  | [] => ""
  | c :: rest => renderNode assets c ++ renderListNodes assets rest

end

/-- Modelled from the spec: the pure conversion entry point: front matter,
chapters rendered in reading order separated by horizontal rules, then the
cleanup pass; it returns the full Markdown text and touches no file
(spec 4.4 and the module-usage contract in the README, where `convert` only
returns the content). -/
def convert (b : BookModel) : String :=
  let fm := String.intercalate "\n" (frontMatter b.metadata)
  let body := String.intercalate "\n---\n" (b.chapters.map (fun c => renderNode b.assets c.root))
  let full := fm ++ "\n" ++ body
  String.intercalate "\n" (cleanupLines (full.splitOn "\n"))

/-- Modelled from the spec: the file system visible to the converter,
as a mapping from paths to file contents. -/
structure FileSystem where
  files : List (String × String)

/-- Look up the content stored at a path. -/
def lookupFile (fs : FileSystem) (p : String) : Option String :=
  (fs.files.find? (fun q => q.1 == p)).map (fun q => q.2)

/-- Modelled from the spec: `convert` as an operation on the file system:
it computes the Markdown text and performs no write. -/
def convertOp (b : BookModel) (fs : FileSystem) : FileSystem × String := (fs, convert b)

/-- Modelled from the spec: `save` writes the converted Markdown at the
requested path and, when image extraction is enabled, the assets at their
assigned output paths (README usage and output structure; byte extraction
itself belongs to the excluded collaborator). -/
def save (b : BookModel) (opts : ConversionOptions) (path : String) (fs : FileSystem) :
    FileSystem × ConversionResult :=
  let md := convert b
  let imgs := if opts.extract_images then b.assets.map (fun a => (a.output_path, "")) else []
  (⟨(path, md) :: imgs ++ fs.files⟩, ⟨md, b.assets.length, 0, []⟩)

/-- C10: the convert operation returns the full Markdown text and leaves the
file system untouched; only the save operation writes, and what it stores at
the requested path is exactly convert's output. -/
theorem convert_writes_no_files :
    (∀ (b : BookModel) (fs : FileSystem), convertOp b fs = (fs, convert b)) ∧
    (∀ (b : BookModel) (fs : FileSystem), (convertOp b fs).1 = fs) ∧
    (∀ (b : BookModel) (opts : ConversionOptions) (path : String) (fs : FileSystem),
      lookupFile (save b opts path fs).1 path = some (convert b)) ∧
    (∀ (b : BookModel) (opts : ConversionOptions) (path : String) (fs : FileSystem),
      (save b opts path fs).2.markdown = convert b) := by
  refine ⟨fun b fs => rfl, fun b fs => rfl, ?_, fun b opts path fs => rfl⟩
  intro b opts path fs
  simp only [save, lookupFile]
  rw [List.cons_append, List.find?_cons_of_pos _ (by simp)]
  rfl

end Epub2Md
